import Mathlib

/-!
Verification of the YAML base-and-overlay generator (`yaml-diff-script.py`).

The script's data domain is the set of parsed YAML values: dictionaries,
lists, scalars, and `None`.  We embed it as the inductive type `Val`,
with mappings as association lists (Python dicts preserve insertion order
and have unique keys; keys may be strings or non-negative integers, since
both occur in the script's path steps and in YAML documents).
-/

/-- A mapping key / path step: Python `str` or non-negative `int`
(as produced by `parse_path` and used by `set_nested` / `get_nested`). -/
inductive Key where
  | str : String → Key
  | idx : Nat → Key
deriving DecidableEq, Repr

/-- A parsed YAML value: `None`, a scalar, a dict, or a list. -/
inductive Val where
  | null : Val
  | scalar : Int → Val
  | map : List (Key × Val) → Val
  | seq : List Val → Val

mutual

/-- Size of a value (used for termination and induction). -/
def sizeV : Val → Nat
  | .null => 1
  | .scalar _ => 1
  | .map m => 2 + sizeM m
  | .seq l => 2 + sizeL l

/-- Total size of dict entries. -/
def sizeM : List (Key × Val) → Nat
  | [] => 0
  | (_, v) :: t => sizeV v + sizeM t

/-- Total size of list items. -/
def sizeL : List Val → Nat
  | [] => 0
  | v :: t => sizeV v + sizeL t

end

theorem sizeV_pos : ∀ v : Val, 0 < sizeV v
  | .null => by simp [sizeV]
  | .scalar _ => by simp [sizeV]
  | .map _ => by simp [sizeV]
  | .seq _ => by simp [sizeV]

theorem sizeM_mem {p : Key × Val} :
    ∀ {m : List (Key × Val)}, p ∈ m → sizeV p.2 ≤ sizeM m
  | [], h => absurd h (List.not_mem_nil p)
  | (k, v) :: t, h => by
    rcases List.mem_cons.mp h with h | h
    · subst h
      simp [sizeM]
    · have := sizeM_mem h
      simp only [sizeM]
      omega

theorem sizeL_mem {v : Val} : ∀ {l : List Val}, v ∈ l → sizeV v ≤ sizeL l
  | [], h => absurd h (List.not_mem_nil v)
  | w :: t, h => by
    rcases List.mem_cons.mp h with h | h
    · subst h
      simp [sizeL]
    · have := sizeL_mem h
      simp only [sizeL]
      omega

mutual

/-- Structural equality of values (Python `==` on parsed YAML data). -/
def valBeq : Val → Val → Bool
  | .null, .null => true
  | .scalar a, .scalar b => a = b
  | .map m, .map n => entriesBeq m n
  | .seq l, .seq r => itemsBeq l r
  | _, _ => false

/-- Equality of dict entry lists. -/
def entriesBeq : List (Key × Val) → List (Key × Val) → Bool
  | [], [] => true
  | (k, v) :: t, (k2, v2) :: t2 => k = k2 && valBeq v v2 && entriesBeq t t2
  | _, _ => false

/-- Equality of item lists. -/
def itemsBeq : List Val → List Val → Bool
  | [], [] => true
  | v :: t, w :: s => valBeq v w && itemsBeq t s
  | _, _ => false

end

theorem valBeq_iff : ∀ a b : Val, valBeq a b = true ↔ a = b := by
  have main : ∀ n, ∀ a b : Val, sizeV a ≤ n → (valBeq a b = true ↔ a = b) := by
    intro n
    induction n with
    | zero =>
      intro a _ ha
      exact absurd (Nat.lt_of_lt_of_le (sizeV_pos a) ha) (by simp)
    | succ n ih =>
      intro a b ha
      cases a with
      | null => cases b <;> simp [valBeq]
      | scalar x => cases b <;> simp [valBeq]
      | map m =>
        cases b with
        | null => simp [valBeq]
        | scalar _ => simp [valBeq]
        | seq _ => simp [valBeq]
        | map p =>
          simp only [valBeq, Val.map.injEq]
          have hm : sizeM m ≤ n := by
            have := ha
            simp only [sizeV] at this
            omega
          clear ha
          induction m generalizing p with
          | nil => cases p <;> simp [entriesBeq]
          | cons q t iht =>
            obtain ⟨k, v⟩ := q
            cases p with
            | nil => simp [entriesBeq]
            | cons q2 t2 =>
              obtain ⟨k2, v2⟩ := q2
              have hv : sizeV v ≤ n := by
                simp only [sizeM] at hm
                have := sizeV_pos v
                omega
              have ht : sizeM t ≤ n := by
                simp only [sizeM] at hm
                have := sizeV_pos v
                omega
              simp only [entriesBeq, Bool.and_eq_true, decide_eq_true_eq,
                List.cons.injEq, Prod.mk.injEq]
              rw [ih v v2 hv]
              exact and_congr Iff.rfl (iht t2 ht)
      | seq l =>
        cases b with
        | null => simp [valBeq]
        | scalar _ => simp [valBeq]
        | map _ => simp [valBeq]
        | seq r =>
          simp only [valBeq, Val.seq.injEq]
          have hl : sizeL l ≤ n := by
            have := ha
            simp only [sizeV] at this
            omega
          clear ha
          induction l generalizing r with
          | nil => cases r <;> simp [itemsBeq]
          | cons v t iht =>
            cases r with
            | nil => simp [itemsBeq]
            | cons w s =>
              have hv : sizeV v ≤ n := by
                simp only [sizeL] at hl
                have := sizeV_pos v
                omega
              have ht : sizeL t ≤ n := by
                simp only [sizeL] at hl
                have := sizeV_pos v
                omega
              simp only [itemsBeq, Bool.and_eq_true, List.cons.injEq]
              exact and_congr (ih v w hv) (iht s ht)
  intro a b
  exact main (sizeV a) a b le_rfl

instance : DecidableEq Val := fun a b =>
  decidable_of_iff (valBeq a b = true) (valBeq_iff a b)

namespace Val

/-- `isinstance(d, dict)`. -/
def isMap : Val → Bool
  | .map _ => true
  | _ => false

/-- `isinstance(d, list)`. -/
def isSeq : Val → Bool
  | .seq _ => true
  | _ => false

/-- A scalar (non-container, non-`None`) value. -/
def isScalar : Val → Bool
  | .scalar _ => true
  | _ => false

/-- The underlying list of a `seq`, `[]` otherwise. -/
def toSeq : Val → List Val
  | .seq l => l
  | _ => []

end Val

/-- Python's `x in ({}, [], None)` test used by `remove_empty_structures`
and by the list branch of `deep_intersection`. -/
def droppable : Val → Bool
  | .map [] => true
  | .seq [] => true
  | .null => true
  | _ => false

mutual

/-- `remove_empty_structures`: recursively remove empty dicts and lists
(and `None`s) from dict entries and list items.  The top-level value
itself is returned with its own constructor intact. -/
def remove_empty_structures : Val → Val
  | .map m => .map (pruneEntries m)
  | .seq l => .seq (pruneItems l)
  | v => v

/-- The dict comprehension
`\x7bk: rm(v) for k, v in data.items() if rm(v) not in (\x7b\x7d, [], None)\x7d`. -/
def pruneEntries : List (Key × Val) → List (Key × Val)
  | [] => []
  | (k, v) :: t =>
    if droppable (remove_empty_structures v) then pruneEntries t
    else (k, remove_empty_structures v) :: pruneEntries t

/-- The list comprehension
`[rm(x) for x in data if rm(x) not in (\x7b\x7d, [], None)]`. -/
def pruneItems : List Val → List Val
  | [] => []
  | v :: t =>
    if droppable (remove_empty_structures v) then pruneItems t
    else remove_empty_structures v :: pruneItems t

end

example :
    remove_empty_structures
      (Val.map [(Key.str "x", Val.map [(Key.str "y", Val.seq [])])]) =
    Val.map [] := by decide

/-- Python dict lookup `d[k]` on an association list (first matching key). -/
def alookup (k : Key) : List (Key × Val) → Option Val
  | [] => none
  | (k2, v) :: t => if k2 = k then some v else alookup k t

/-- The value of `d[k]` for a dict `d`, `null` when `k` is absent or `d`
is not a dict (callers only use it when lookup is known to succeed). -/
def childAt (k : Key) : Val → Val
  | .map m => (alookup k m).getD .null
  | _ => .null

/-- Python `k in d.keys()`. -/
def keyIn (k : Key) : Val → Bool
  | .map m => (alookup k m).isSome
  | _ => false

/-- `reduce(set.intersection, (set(d.keys()) for d in data_list))` for
`data_list = map m :: rest`: the keys of the first dict present in all
the others (iterated in the first dict's key order). -/
def commonKeys (m : List (Key × Val)) (rest : List Val) : List Key :=
  (m.map Prod.fst).filter (fun k => rest.all (keyIn k))

theorem alookup_size {k : Key} :
    ∀ {m : List (Key × Val)} {v : Val}, alookup k m = some v → sizeV v ≤ sizeM m
  | [], v, h => by simp [alookup] at h
  | (k2, w) :: t, v, h => by
    by_cases hk : k2 = k
    · simp only [alookup, if_pos hk] at h
      cases h
      simp [sizeM]
    · simp only [alookup, if_neg hk] at h
      have := alookup_size h
      simp only [sizeM]
      omega

theorem childAt_map_size (k : Key) (m : List (Key × Val)) :
    sizeV (childAt k (Val.map m)) < sizeV (Val.map m) := by
  simp only [childAt, sizeV]
  cases h : alookup k m with
  | none =>
    simp only [Option.getD_none, sizeV]
    omega
  | some v =>
    have := alookup_size h
    simp only [Option.getD_some]
    omega

/-- `zip(*data_list)` for `data_list = seq l :: rest.map toSeq`: the list of
index-aligned tuples `(l[i], [r[i] for r in rest])`, up to the shortest
input's length; each tuple is split as (first element, other elements). -/
def zipAll : List Val → List (List Val) → List (Val × List Val)
  | [], _ => []
  | x :: xs, rs =>
    if rs.all (fun r => !r.isEmpty) then
      (x, rs.map (fun r => r.headD .null)) :: zipAll xs (rs.map List.tail)
    else []

theorem zipAll_fst_mem :
    ∀ {l : List Val} {rs : List (List Val)} {x : Val} {ys : List Val},
      (x, ys) ∈ zipAll l rs → x ∈ l
  | [], rs, x, ys, h => by simp [zipAll] at h
  | a :: xs, rs, x, ys, h => by
    simp only [zipAll] at h
    by_cases hr : rs.all (fun r => !r.isEmpty) = true
    · rw [if_pos hr] at h
      rcases List.mem_cons.mp h with h | h
      · cases h
        exact List.mem_cons_self _ _
      · exact List.mem_cons_of_mem _ (zipAll_fst_mem h)
    · rw [if_neg hr] at h
      cases h

/-- `deep_intersection(data_list)` for non-empty `data_list`, split as
first document and rest.  Follows the Python branch order: all dicts,
then all lists, then all equal, else `None`; the result dict is passed
through `remove_empty_structures`, list items that are `\x7b\x7d`/`[]`/`None`
are skipped, and an empty result list becomes `None`. -/
def di : Val → List Val → Val
  | .map m, rest =>
    if rest.all Val.isMap then
      remove_empty_structures (.map ((commonKeys m rest).attach.map
        (fun kk => (kk.1, di ((alookup kk.1 m).getD .null) (rest.map (childAt kk.1))))))
    else .null
  | .seq l, rest =>
    if rest.all Val.isSeq then
      let res := ((zipAll l (rest.map Val.toSeq)).attach.map
        (fun pp => di pp.1.1 pp.1.2)).filter (fun v => !droppable v)
      if res.isEmpty then .null else .seq res
    else .null
  | d, rest => if rest.all (fun x => decide (x = d)) then d else .null
termination_by d _ => sizeV d
decreasing_by
  · exact childAt_map_size kk.1 m
  · have h1 : pp.1.1 ∈ l := zipAll_fst_mem (by rw [Prod.mk.eta]; exact pp.2)
    have := sizeL_mem h1
    simp only [sizeV]
    omega

/-- `deep_intersection`: `None` on the empty list, else intersect. -/
def deep_intersection : List Val → Val
  | [] => .null
  | d :: rest => di d rest

theorem di_map_eq (m : List (Key × Val)) (rest : List Val)
    (h : rest.all Val.isMap = true) :
    di (Val.map m) rest =
      remove_empty_structures (.map ((commonKeys m rest).map
        (fun k => (k, di ((alookup k m).getD .null) (rest.map (childAt k)))))) := by
  rw [di, if_pos h]
  congr 2
  exact List.attach_map_coe (commonKeys m rest)
    (fun k => (k, di ((alookup k m).getD .null) (rest.map (childAt k))))

theorem di_seq_eq (l : List Val) (rest : List Val)
    (h : rest.all Val.isSeq = true) :
    di (Val.seq l) rest =
      (let res := ((zipAll l (rest.map Val.toSeq)).map
        (fun pp => di pp.1 pp.2)).filter (fun v => !droppable v)
      if res.isEmpty then Val.null else Val.seq res) := by
  rw [di, if_pos h]
  rw [← List.attach_map_coe (zipAll l (rest.map Val.toSeq)) (fun pp => di pp.1 pp.2)]

theorem di_null_eq (rest : List Val) :
    di Val.null rest =
      (if rest.all (fun x => decide (x = Val.null)) then Val.null else Val.null) := by
  rw [di] <;> simp

theorem di_scalar_eq (a : Int) (rest : List Val) :
    di (Val.scalar a) rest =
      (if rest.all (fun x => decide (x = Val.scalar a)) then Val.scalar a
       else Val.null) := by
  rw [di] <;> simp

theorem di_map_not_all (m : List (Key × Val)) (rest : List Val)
    (h : ¬ rest.all Val.isMap = true) : di (Val.map m) rest = Val.null := by
  rw [di, if_neg h]

theorem di_seq_not_all (l : List Val) (rest : List Val)
    (h : ¬ rest.all Val.isSeq = true) : di (Val.seq l) rest = Val.null := by
  rw [di, if_neg h]

/-- Python exception kinds that the script's path walkers can raise. -/
inductive PyErr where
  | keyError : PyErr
  | indexError : PyErr
  | typeError : PyErr
  | attributeError : PyErr
deriving DecidableEq, Repr

/-- `KeyError` and `IndexError` are the subclasses of Python's
`LookupError`; `TypeError` and `AttributeError` are not `LookupError`s. -/
def isLookupError : PyErr → Bool
  | .keyError => true
  | .indexError => true
  | _ => false

/-- Spec-level path lookup: walk by successive dict-key / list-index
steps, `none` when a step does not resolve.  A path is *present* in a
document exactly when `getPath` returns `some`. -/
def getPath : Val → List Key → Option Val
  | v, [] => some v
  | .map m, k :: p =>
    match alookup k m with
    | some u => getPath u p
    | none => none
  | .seq l, .idx i :: p =>
    match l[i]? with
    | some u => getPath u p
    | none => none
  | _, _ :: _ => none

/-- `get_nested`: the loop `for key in path: d = d[key]`.  In Python,
`d[key]` raises `KeyError` for a missing dict key (string or integer),
`IndexError` for an out-of-range list index, and `TypeError` for a
string index on a list or any subscript of a scalar or `None`. -/
def get_nested : Val → List Key → Except PyErr Val
  | v, [] => .ok v
  | .map m, k :: p =>
    match alookup k m with
    | some u => get_nested u p
    | none => .error .keyError
  | .seq l, .idx i :: p =>
    match l[i]? with
    | some u => get_nested u p
    | none => .error .indexError
  | .seq _, .str _ :: _ => .error .typeError
  | _, _ :: _ => .error .typeError

/-- Python dict assignment `d[k] = v`: replace the value of an existing
key in place, or append a new entry at the end. -/
def setEntry : List (Key × Val) → Key → Val → List (Key × Val)
  | [], k, v => [(k, v)]
  | (k2, u) :: t, k, v =>
    if k2 = k then (k, v) :: t else (k2, u) :: setEntry t k v

/-- `while len(l) <= n - 1: l.append(filler)`: pad `l` with `filler`
up to length at least `n`. -/
def padTo (l : List Val) (n : Nat) (filler : Val) : List Val :=
  l ++ List.replicate (n - l.length) filler

/-- The container created for a missing intermediate step:
`\x7b\x7d if isinstance(path[i+1], str) else []`. -/
def defaultFor : Key → Val
  | .str _ => .map []
  | .idx _ => .seq []

/-- `set_nested(d, path, value)` as a function returning the updated
document (the Python version mutates `d` through aliases).  Python error
behaviour at each step: `path[-1]` of an empty path raises `IndexError`;
`setdefault` on a list, scalar or `None` raises `AttributeError`;
`len()` of a scalar or `None` raises `TypeError`; `d.append` on a dict
raises `AttributeError` (reached exactly when `len(d) <= key`);
`d[int]` on a dict raises `KeyError` when the integer key is absent;
`d[str] = v` on a list or scalar raises `TypeError`. -/
def set_nested : Val → List Key → Val → Except PyErr Val
  | _, [], _ => .error .indexError
  | d, [k], v =>
    match d, k with
    | .map m, .str s => .ok (.map (setEntry m (.str s) v))
    | .map m, .idx i =>
      if m.length ≤ i then .error .attributeError
      else .ok (.map (setEntry m (.idx i) v))
    | .seq _, .str _ => .error .typeError
    | .seq l, .idx i => .ok (.seq ((padTo l (i + 1) .null).set i v))
    | _, _ => .error .typeError
  | d, k :: k2 :: rest, v =>
    match d, k with
    | .map m, .str s =>
      let m1 := if (alookup (.str s) m).isSome then m
                else m ++ [(.str s, defaultFor k2)]
      match set_nested ((alookup (.str s) m).getD (defaultFor k2)) (k2 :: rest) v with
      | .ok child2 => .ok (.map (setEntry m1 (.str s) child2))
      | .error e => .error e
    | .map m, .idx i =>
      if m.length ≤ i then .error .attributeError
      else
        match alookup (.idx i) m with
        | none => .error .keyError
        | some child =>
          match set_nested child (k2 :: rest) v with
          | .ok child2 => .ok (.map (setEntry m (.idx i) child2))
          | .error e => .error e
    | .seq _, .str _ => .error .attributeError
    | .seq l, .idx i =>
      match set_nested ((padTo l (i + 1) (defaultFor k2)).getD i .null) (k2 :: rest) v with
      | .ok child2 => .ok (.seq ((padTo l (i + 1) (defaultFor k2)).set i child2))
      | .error e => .error e
    | .null, .str _ => .error .attributeError
    | .null, .idx _ => .error .typeError
    | .scalar _, .str _ => .error .attributeError
    | .scalar _, .idx _ => .error .typeError

/-- In-place replacement of the subtree at an existing path — the effect
of mutating, through an alias obtained by `get_nested`, an object stored
inside the document.  `none` when the path does not resolve. -/
def mutAt : Val → List Key → Val → Option Val
  | _, [], nv => some nv
  | .map m, k :: p, nv =>
    match alookup k m with
    | some u => (mutAt u p nv).map (fun u2 => .map (setEntry m k u2))
    | none => none
  | .seq l, .idx i :: p, nv =>
    match l[i]? with
    | some u => (mutAt u p nv).map (fun u2 => .seq (l.set i u2))
    | none => none
  | _, _ :: _, _ => none

/-- Modelled from the spec: the report of the external structural-diff
collaborator, `DeepDiff(base, full, ignore_order=True)` (a third-party
library, not part of this repository), with the bracketed-accessor path
strings already parsed by `parse_path` into key lists.  `values_changed`
and `type_changes` entries carry an (old value, new value) pair, of
which the script reads only `new_value`; the two removal categories are
carried in the report but are never read by `create_overlay`. -/
structure DiffReport where
  dictionary_item_added : List (List Key)
  values_changed : List (List Key × Val × Val)
  iterable_item_added : List (List Key × Val)
  type_changes : List (List Key × Val × Val)
  dictionary_item_removed : List (List Key)
  iterable_item_removed : List (List Key)

/-- One step of the `iterable_item_added` branch of `create_overlay`:
split the path into parent path and final index, locate the parent in
the overlay (`get_nested`, or the overlay itself for an empty parent
path), replace a non-list parent by a fresh `[]` written via
`set_nested`, then pad the parent with `None` up to the index and
assign the added value there (in place, through the alias). -/
def applyIterAdd (o : Val) (p : List Key) (v : Val) : Except PyErr Val :=
  match p.getLast? with
  | none => .error .indexError
  | some last =>
    let pp := p.dropLast
    if pp.isEmpty then
      match o, last with
      | .seq l, .idx i => .ok (.seq ((padTo l (i + 1) .null).set i v))
      | .seq _, .str _ => .error .typeError
      | _, _ => .error .indexError
    else
      match get_nested o pp with
      | .error e => .error e
      | .ok (.seq l) =>
        match last with
        | .idx i =>
          match mutAt o pp (.seq ((padTo l (i + 1) .null).set i v)) with
          | some o2 => .ok o2
          | none => .error .keyError
        | .str _ => .error .typeError
      | .ok _ =>
        match set_nested o pp (Val.seq []) with
        | .error e => .error e
        | .ok o2 =>
          match last with
          | .idx i =>
            match mutAt o2 pp (.seq ((padTo [] (i + 1) .null).set i v)) with
            | some o3 => .ok o3
            | none => .error .keyError
          | .str _ => .error .typeError

/-- The body of `create_overlay` given the parsed diff report: apply the
four additive report categories in the script's order — added dict
entries (value fetched from `full`), changed values, added list items,
type changes — then prune the overlay. -/
def create_overlay_rep (full : Val) (rep : DiffReport) : Except PyErr Val := do
  let o1 ← rep.dictionary_item_added.foldlM
    (fun o p => do set_nested o p (← get_nested full p)) (Val.map [])
  let o2 ← rep.values_changed.foldlM (fun o pc => set_nested o pc.1 pc.2.2) o1
  let o3 ← rep.iterable_item_added.foldlM (fun o pv => applyIterAdd o pv.1 pv.2) o2
  let o4 ← rep.type_changes.foldlM (fun o pc => set_nested o pc.1 pc.2.2) o3
  return remove_empty_structures o4

/-- `create_overlay(base, full)`, parameterized by the external diff
collaborator `dd` (standing for `DeepDiff(-, -, ignore_order=True)`
composed with `parse_path` on the reported path strings). -/
def create_overlay (dd : Val → Val → DiffReport) (base full : Val) :
    Except PyErr Val :=
  create_overlay_rep full (dd base full)

/-- `generate_base_and_overlays` on the already-loaded documents.
`read_yaml` is an I/O collaborator: it returns `None` — embedded as
`Val.null` — exactly when loading fails, and the script tests
`if None in data_list` to short-circuit with `(None, [])`. -/
def generate_base_and_overlays (dd : Val → Val → DiffReport)
    (data_list : List Val) : Except PyErr (Val × List Val) :=
  if data_list.any (fun d => decide (d = Val.null)) then .ok (Val.null, [])
  else do
    let base := deep_intersection data_list
    let overlays ← data_list.mapM (fun d => create_overlay dd base d)
    return (base, overlays)

theorem pruneEntries_idem_of (m : List (Key × Val))
    (IH : ∀ p ∈ m, remove_empty_structures (remove_empty_structures p.2) =
      remove_empty_structures p.2) :
    pruneEntries (pruneEntries m) = pruneEntries m := by
  induction m with
  | nil => rfl
  | cons q t iht =>
    obtain ⟨k, v⟩ := q
    have hv := IH (k, v) (List.mem_cons_self _ _)
    have htail := iht (fun p hp => IH p (List.mem_cons_of_mem _ hp))
    by_cases hd : droppable (remove_empty_structures v) = true
    · simp only [pruneEntries, if_pos hd]
      exact htail
    · simp only [pruneEntries, if_neg hd]
      simp only [pruneEntries, hv, if_neg hd]
      rw [htail]

theorem pruneItems_idem_of (l : List Val)
    (IH : ∀ v ∈ l, remove_empty_structures (remove_empty_structures v) =
      remove_empty_structures v) :
    pruneItems (pruneItems l) = pruneItems l := by
  induction l with
  | nil => rfl
  | cons v t iht =>
    have hv := IH v (List.mem_cons_self _ _)
    have htail := iht (fun w hw => IH w (List.mem_cons_of_mem _ hw))
    by_cases hd : droppable (remove_empty_structures v) = true
    · simp only [pruneItems, if_pos hd]
      exact htail
    · simp only [pruneItems, if_neg hd]
      simp only [pruneItems, hv, if_neg hd]
      rw [htail]

theorem prune_idem (v : Val) :
    remove_empty_structures (remove_empty_structures v) =
      remove_empty_structures v := by
  have main : ∀ n, ∀ v : Val, sizeV v ≤ n →
      remove_empty_structures (remove_empty_structures v) =
        remove_empty_structures v := by
    intro n
    induction n with
    | zero =>
      intro v hv
      exact absurd (Nat.lt_of_lt_of_le (sizeV_pos v) hv) (by simp)
    | succ n ih =>
      intro v hv
      cases v with
      | null => rfl
      | scalar a => rfl
      | map m =>
        have hm : sizeM m ≤ n := by
          simp only [sizeV] at hv
          omega
        simp only [remove_empty_structures]
        rw [pruneEntries_idem_of m (fun p hp => ih p.2
          (le_trans (sizeM_mem hp) hm))]
      | seq l =>
        have hl : sizeL l ≤ n := by
          simp only [sizeV] at hv
          omega
        simp only [remove_empty_structures]
        rw [pruneItems_idem_of l (fun w hw => ih w
          (le_trans (sizeL_mem hw) hl))]
  exact main (sizeV v) v le_rfl

/-- Claim C4: pruning is idempotent — applying `remove_empty_structures`
twice to any value gives the same result as applying it once. -/
theorem C4_prune_idempotent (x : Val) :
    remove_empty_structures (remove_empty_structures x) =
      remove_empty_structures x :=
  prune_idem x

/-- Claim C9: `remove_empty_structures` maps `None` to `None` and nothing
else to `None`: a dict is mapped to a dict (possibly empty), a list to a
list (possibly empty), and a scalar to itself; a top-level container is
never collapsed to absent. -/
theorem C9_prune_preserves_kind :
    (∀ m : List (Key × Val),
       remove_empty_structures (Val.map m) = Val.map (pruneEntries m))
    ∧ (∀ l : List Val,
       remove_empty_structures (Val.seq l) = Val.seq (pruneItems l))
    ∧ (∀ a : Int, remove_empty_structures (Val.scalar a) = Val.scalar a)
    ∧ (∀ v : Val, remove_empty_structures v = Val.null ↔ v = Val.null) := by
  refine ⟨fun m => rfl, fun l => rfl, fun a => rfl, fun v => ?_⟩
  cases v <;> simp [remove_empty_structures]

theorem pruneEntries_nil_of (m : List (Key × Val))
    (h : ∀ p ∈ m, droppable (remove_empty_structures p.2) = true) :
    pruneEntries m = [] := by
  induction m with
  | nil => rfl
  | cons q t iht =>
    obtain ⟨k, v⟩ := q
    simp only [pruneEntries, if_pos (h (k, v) (List.mem_cons_self _ _))]
    exact iht (fun p hp => h p (List.mem_cons_of_mem _ hp))

theorem pruneItems_nil_of (l : List Val)
    (h : ∀ v ∈ l, droppable (remove_empty_structures v) = true) :
    pruneItems l = [] := by
  induction l with
  | nil => rfl
  | cons v t iht =>
    simp only [pruneItems, if_pos (h v (List.mem_cons_self _ _))]
    exact iht (fun w hw => h w (List.mem_cons_of_mem _ hw))

/-- Claim C1 (counterexample): pruning a dict whose children have all been
dropped yields the empty dict `\x7b\x7d`, not `None`; and the deep
intersection of `\x7b"x": \x7b"y": 1\x7d\x7d` and `\x7b"x": \x7b"z": 2\x7d\x7d`
is the empty dict `\x7b\x7d`, which is not absent — contradicting the claim
that it is `None`. -/
theorem C1_counterexample :
    remove_empty_structures (Val.map [(Key.str "x", Val.map [])]) = Val.map []
    ∧ deep_intersection
        [Val.map [(Key.str "x", Val.map [(Key.str "y", Val.scalar 1)])],
         Val.map [(Key.str "x", Val.map [(Key.str "z", Val.scalar 2)])]] =
      Val.map []
    ∧ Val.map [] ≠ Val.null := by
  refine ⟨by decide, ?_, by decide⟩
  simp [deep_intersection, di_map_eq, commonKeys, keyIn, alookup,
    childAt, remove_empty_structures, pruneEntries, droppable, Val.isMap]

/-- Claim C1 (amended): pruning a dict or list whose children have all
been dropped yields the *empty container of the same kind*, not absent;
in particular deep-intersecting `\x7b"x": \x7b"y": 1\x7d\x7d` with
`\x7b"x": \x7b"z": 2\x7d\x7d` returns the empty dict (the inner mapping has
no common key, so the value of `"x"` prunes away, leaving an empty dict
at top level).  Only the list branch of `deep_intersection` itself turns
an all-dropped result into `None`. -/
theorem C1_amended :
    (∀ m : List (Key × Val),
       (∀ p ∈ m, droppable (remove_empty_structures p.2) = true) →
       remove_empty_structures (Val.map m) = Val.map [])
    ∧ (∀ l : List Val,
       (∀ v ∈ l, droppable (remove_empty_structures v) = true) →
       remove_empty_structures (Val.seq l) = Val.seq [])
    ∧ deep_intersection
        [Val.map [(Key.str "x", Val.map [(Key.str "y", Val.scalar 1)])],
         Val.map [(Key.str "x", Val.map [(Key.str "z", Val.scalar 2)])]] =
      Val.map [] := by
  refine ⟨fun m h => ?_, fun l h => ?_, ?_⟩
  · simp only [remove_empty_structures, pruneEntries_nil_of m h]
  · simp only [remove_empty_structures, pruneItems_nil_of l h]
  · simp [deep_intersection, di_map_eq, commonKeys, keyIn, alookup,
      childAt, remove_empty_structures, pruneEntries, droppable, Val.isMap]

/-- Witness for C1's amended theorem at a concrete input. -/
theorem C1_amended_witness :
    (∀ p ∈ ([(Key.str "x", Val.map []), (Key.str "y", Val.null)] :
        List (Key × Val)), droppable (remove_empty_structures p.2) = true)
    ∧ remove_empty_structures
        (Val.map [(Key.str "x", Val.map []), (Key.str "y", Val.null)]) =
      Val.map [] :=
  ⟨by decide, C1_amended.1 _ (by decide)⟩

theorem foldl_minlen_zero :
    ∀ rs : List (List Val), rs.foldl (fun n r => min n r.length) 0 = 0
  | [] => rfl
  | r :: rs => by
    simp only [List.foldl_cons, Nat.zero_min]
    exact foldl_minlen_zero rs

theorem foldl_minlen_of_nil :
    ∀ (rs : List (List Val)) (a : Nat), ([] : List Val) ∈ rs →
      rs.foldl (fun n r => min n r.length) a = 0
  | [], a, h => absurd h (List.not_mem_nil _)
  | r :: rs, a, h => by
    rcases List.mem_cons.mp h with h | h
    · subst h
      simp only [List.foldl_cons, List.length_nil, Nat.min_zero]
      exact foldl_minlen_zero rs
    · exact foldl_minlen_of_nil rs _ h

theorem foldl_minlen_succ :
    ∀ (rs : List (List Val)) (a : Nat), (∀ r ∈ rs, r ≠ []) →
      rs.foldl (fun n r => min n r.length) (a + 1) =
        (rs.map List.tail).foldl (fun n r => min n r.length) a + 1
  | [], a, _ => rfl
  | r :: rs, a, h => by
    obtain ⟨b, t, rfl⟩ : ∃ b t, r = b :: t := by
      cases r with
      | nil => exact absurd rfl (h [] (List.mem_cons_self _ _))
      | cons b t => exact ⟨b, t, rfl⟩
    simp only [List.foldl_cons, List.map_cons, List.length_cons, List.tail_cons]
    rw [Nat.succ_min_succ]
    exact foldl_minlen_succ rs _ (fun r hr => h r (List.mem_cons_of_mem _ hr))

theorem getD_succ_tail (r : List Val) (i : Nat) :
    r.getD (i + 1) Val.null = r.tail.getD i Val.null := by
  cases r <;> simp [List.getD]

theorem zipAll_eq :
    ∀ (l : List Val) (rs : List (List Val)),
      zipAll l rs =
        (List.range (rs.foldl (fun n r => min n r.length) l.length)).map
          (fun i => (l.getD i Val.null, rs.map (fun r => r.getD i Val.null)))
  | [], rs => by
    simp [zipAll, List.length_nil, foldl_minlen_zero rs]
  | x :: xs, rs => by
    by_cases hr : rs.all (fun r => !r.isEmpty) = true
    · have hne : ∀ r ∈ rs, r ≠ [] := by
        intro r hmem
        have := List.all_eq_true.mp hr r hmem
        cases r with
        | nil => simp at this
        | cons a t => exact fun hc => List.noConfusion hc
      simp only [zipAll, if_pos hr]
      rw [zipAll_eq xs (rs.map List.tail)]
      simp only [List.length_cons]
      rw [foldl_minlen_succ rs xs.length hne]
      rw [List.range_succ_eq_map]
      simp only [List.map_cons, List.map_map]
      congr 1
      · simp only [List.getD_cons_zero]
        congr 1
        apply List.map_congr_left
        intro r _
        cases r <;> simp [List.getD, List.headD]
      · apply List.map_congr_left
        intro i _
        simp only [Function.comp_apply, List.getD_cons_succ]
        congr 1
        apply List.map_congr_left
        intro r _
        simp only [Function.comp_apply]
        exact (getD_succ_tail r i).symm
    · have hnil : ([] : List Val) ∈ rs := by
        by_contra hc
        apply hr
        rw [List.all_eq_true]
        intro r hmem
        cases r with
        | nil => exact absurd hmem hc
        | cons a t => simp
      simp only [zipAll, if_neg hr]
      rw [foldl_minlen_of_nil rs _ hnil]
      simp

/-- Claim C3: for a non-empty list of inputs that are all lists, the deep
intersection is the list whose elements are the intersections of the
i-th items of all inputs, for i up to the shortest input length minus
one; items whose intersection is `\x7b\x7d`, `[]` or `None` are dropped
entirely (later items shift down to fill the gap), and if every item is
dropped the whole result is `None`. -/
theorem C3_seq_index_aligned (l : List Val) (rest : List Val)
    (h : rest.all Val.isSeq = true) :
    deep_intersection (Val.seq l :: rest) =
      (let n := (rest.map Val.toSeq).foldl (fun n r => min n r.length) l.length
       let elems := ((List.range n).map (fun i =>
         deep_intersection ((Val.seq l :: rest).map
           (fun d => (Val.toSeq d).getD i Val.null)))).filter
           (fun v => !droppable v)
       if elems.isEmpty then Val.null else Val.seq elems) := by
  show di (Val.seq l) rest = _
  rw [di_seq_eq l rest h]
  simp only [zipAll_eq, List.map_map, List.map_cons, Val.toSeq]
  rfl

/-- Witness for C3 at a concrete input: inputs `[1, 2]` and `[1, 3, 4]`. -/
theorem C3_seq_index_aligned_witness :
    ([Val.seq [Val.scalar 1, Val.scalar 3, Val.scalar 4]] : List Val).all
      Val.isSeq = true
    ∧ deep_intersection
        (Val.seq [Val.scalar 1, Val.scalar 2] ::
          [Val.seq [Val.scalar 1, Val.scalar 3, Val.scalar 4]]) =
      (let n := (([Val.seq [Val.scalar 1, Val.scalar 3, Val.scalar 4]] :
           List Val).map Val.toSeq).foldl (fun n r => min n r.length)
           ([Val.scalar 1, Val.scalar 2] : List Val).length
       let elems := ((List.range n).map (fun i =>
         deep_intersection ((Val.seq [Val.scalar 1, Val.scalar 2] ::
           [Val.seq [Val.scalar 1, Val.scalar 3, Val.scalar 4]]).map
           (fun d => (Val.toSeq d).getD i Val.null)))).filter
           (fun v => !droppable v)
       if elems.isEmpty then Val.null else Val.seq elems) :=
  ⟨by decide, C3_seq_index_aligned [Val.scalar 1, Val.scalar 2]
    [Val.seq [Val.scalar 1, Val.scalar 3, Val.scalar 4]] (by decide)⟩

/-- Claim C8: if any input document failed to load (the loader returned
its failure sentinel `None`), `generate_base_and_overlays` returns the
no-result sentinel `(None, [])`, for every behaviour of the diff
collaborator and whatever the other documents are. -/
theorem C8_short_circuit_on_load_failure (dd : Val → Val → DiffReport)
    (data_list : List Val) (h : Val.null ∈ data_list) :
    generate_base_and_overlays dd data_list = Except.ok (Val.null, []) := by
  unfold generate_base_and_overlays
  rw [if_pos]
  rw [List.any_eq_true]
  exact ⟨Val.null, h, by simp⟩

/-- Witness for C8 at a concrete input. -/
theorem C8_short_circuit_witness :
    Val.null ∈ [Val.scalar 3, Val.null]
    ∧ generate_base_and_overlays (fun _ _ => ⟨[], [], [], [], [], []⟩)
        [Val.scalar 3, Val.null] = Except.ok (Val.null, []) :=
  ⟨by decide, C8_short_circuit_on_load_failure _ _ (by decide)⟩

/-- Claim C5: `create_overlay` never subtracts.  First part: the overlay
is computed from the four additive report categories only — two diff
reports that agree on added dict entries, changed values, added list
items and type changes produce identical overlays, whatever their
removal reports (`dictionary_item_removed`, `iterable_item_removed`)
say.  Second part: a report consisting of removals only produces the
empty overlay. -/
theorem C5_removals_never_applied :
    (∀ (full : Val) (r1 r2 : DiffReport),
      r1.dictionary_item_added = r2.dictionary_item_added →
      r1.values_changed = r2.values_changed →
      r1.iterable_item_added = r2.iterable_item_added →
      r1.type_changes = r2.type_changes →
      create_overlay_rep full r1 = create_overlay_rep full r2)
    ∧ (∀ (full : Val) (rems1 rems2 : List (List Key)),
      create_overlay_rep full ⟨[], [], [], [], rems1, rems2⟩ =
        Except.ok (Val.map [])) := by
  constructor
  · intro full r1 r2 h1 h2 h3 h4
    obtain ⟨a1, b1, c1, d1, e1, f1⟩ := r1
    obtain ⟨a2, b2, c2, d2, e2, f2⟩ := r2
    simp only at h1 h2 h3 h4
    subst h1
    subst h2
    subst h3
    subst h4
    rfl
  · intro full rems1 rems2
    rfl

/-- Witness for C5 at concrete inputs: two reports differing only in
their removal categories. -/
theorem C5_removals_never_applied_witness :
    create_overlay_rep (Val.scalar 0)
        ⟨[], [], [], [], [[Key.str "gone"]], [[Key.idx 2]]⟩ =
      create_overlay_rep (Val.scalar 0) ⟨[], [], [], [], [], []⟩
    ∧ create_overlay_rep (Val.scalar 0)
        ⟨[], [], [], [], [[Key.str "gone"]], [[Key.idx 2]]⟩ =
      Except.ok (Val.map []) :=
  ⟨C5_removals_never_applied.1 (Val.scalar 0) _ _ rfl rfl rfl rfl,
   C5_removals_never_applied.2 (Val.scalar 0) [[Key.str "gone"]] [[Key.idx 2]]⟩

/-- The current node is of the wrong container kind for a step, in the
sense in which Python raises `TypeError` from `d[key]`: a string index
on a list, or any subscript of a scalar or `None`.  (An integer step on
a dict is an ordinary dict lookup, not a `TypeError`.) -/
def wrongKind : Val → Key → Bool
  | .seq _, .str _ => true
  | .map _, _ => false
  | .seq _, .idx _ => false
  | _, _ => true

/-- The step is absent from a container of matching kind: a key missing
from a dict, or an out-of-range index of a list. -/
def absentStep : Val → Key → Bool
  | .map m, k => (alookup k m).isNone
  | .seq l, .idx i => decide (l.length ≤ i)
  | _, _ => false

theorem get_nested_spec :
    ∀ (p : List Key) (d : Val),
      (∀ v, get_nested d p = Except.ok v ↔ getPath d p = some v)
      ∧ (∀ e, get_nested d p = Except.error e → getPath d p = none)
      ∧ (get_nested d p = Except.error PyErr.typeError →
          ∃ q s r u, p = q ++ s :: r ∧ getPath d q = some u ∧
            wrongKind u s = true)
      ∧ (∀ e, get_nested d p = Except.error e → isLookupError e = true →
          ∃ q s r u, p = q ++ s :: r ∧ getPath d q = some u ∧
            absentStep u s = true) := by
  intro p
  induction p with
  | nil =>
    intro d
    refine ⟨fun v => ?_, fun e h => ?_, fun h => ?_, fun e h _ => ?_⟩
    · simp [get_nested, getPath]
    · simp [get_nested] at h
    · simp [get_nested] at h
    · simp [get_nested] at h
  | cons k p ih =>
    intro d
    cases d with
    | map m =>
      cases halk : alookup k m with
      | some u =>
        have hg : ∀ q, get_nested (Val.map m) (k :: q) = get_nested u q := by
          intro q
          simp [get_nested, halk]
        have hp : ∀ q, getPath (Val.map m) (k :: q) = getPath u q := by
          intro q
          simp [getPath, halk]
        obtain ⟨ih1, ih2, ih3, ih4⟩ := ih u
        refine ⟨fun v => ?_, fun e h => ?_, fun h => ?_, fun e h hl => ?_⟩
        · rw [hg, hp]
          exact ih1 v
        · rw [hp]
          exact ih2 e ((hg p) ▸ h)
        · obtain ⟨q, s, r, u2, hq, hgp, hw⟩ := ih3 ((hg p) ▸ h)
          refine ⟨k :: q, s, r, u2, by rw [hq]; rfl, ?_, hw⟩
          rw [hp]
          exact hgp
        · obtain ⟨q, s, r, u2, hq, hgp, hw⟩ := ih4 e ((hg p) ▸ h) hl
          refine ⟨k :: q, s, r, u2, by rw [hq]; rfl, ?_, hw⟩
          rw [hp]
          exact hgp
      | none =>
        have hg : get_nested (Val.map m) (k :: p) =
            Except.error PyErr.keyError := by
          simp [get_nested, halk]
        have hp : getPath (Val.map m) (k :: p) = none := by
          simp [getPath, halk]
        refine ⟨fun v => ?_, fun e h => ?_, fun h => ?_, fun e h hl => ?_⟩
        · rw [hg, hp]
          simp
        · exact hp
        · rw [hg] at h
          simp at h
        · exact ⟨[], k, p, Val.map m, rfl, rfl, by simp [absentStep, halk]⟩
    | seq l =>
      cases k with
      | idx i =>
        cases hget : l[i]? with
        | some u =>
          have hg : ∀ q, get_nested (Val.seq l) (Key.idx i :: q) =
              get_nested u q := by
            intro q
            simp [get_nested, hget]
          have hp : ∀ q, getPath (Val.seq l) (Key.idx i :: q) =
              getPath u q := by
            intro q
            simp [getPath, hget]
          obtain ⟨ih1, ih2, ih3, ih4⟩ := ih u
          refine ⟨fun v => ?_, fun e h => ?_, fun h => ?_, fun e h hl => ?_⟩
          · rw [hg, hp]
            exact ih1 v
          · rw [hp]
            exact ih2 e ((hg p) ▸ h)
          · obtain ⟨q, s, r, u2, hq, hgp, hw⟩ := ih3 ((hg p) ▸ h)
            refine ⟨Key.idx i :: q, s, r, u2, by rw [hq]; rfl, ?_, hw⟩
            rw [hp]
            exact hgp
          · obtain ⟨q, s, r, u2, hq, hgp, hw⟩ := ih4 e ((hg p) ▸ h) hl
            refine ⟨Key.idx i :: q, s, r, u2, by rw [hq]; rfl, ?_, hw⟩
            rw [hp]
            exact hgp
        | none =>
          have hlen : l.length ≤ i := List.getElem?_eq_none_iff.mp hget
          have hg : get_nested (Val.seq l) (Key.idx i :: p) =
              Except.error PyErr.indexError := by
            simp [get_nested, hget]
          have hp : getPath (Val.seq l) (Key.idx i :: p) = none := by
            simp [getPath, hget]
          refine ⟨fun v => ?_, fun e h => ?_, fun h => ?_, fun e h hl => ?_⟩
          · rw [hg, hp]
            simp
          · exact hp
          · rw [hg] at h
            simp at h
          · exact ⟨[], Key.idx i, p, Val.seq l, rfl, rfl,
              by simp [absentStep, hlen]⟩
      | str s =>
        refine ⟨fun v => ?_, fun e h => ?_, fun h => ?_, fun e h hl => ?_⟩
        · simp [get_nested, getPath]
        · simp [getPath]
        · exact ⟨[], Key.str s, p, Val.seq l, rfl, rfl, rfl⟩
        · simp only [get_nested, Except.error.injEq] at h
          subst h
          simp [isLookupError] at hl
    | null =>
      refine ⟨fun v => ?_, fun e h => ?_, fun h => ?_, fun e h hl => ?_⟩
      · simp [get_nested, getPath]
      · simp [getPath]
      · exact ⟨[], k, p, Val.null, rfl, rfl, rfl⟩
      · simp only [get_nested, Except.error.injEq] at h
        subst h
        simp [isLookupError] at hl
    | scalar a =>
      refine ⟨fun v => ?_, fun e h => ?_, fun h => ?_, fun e h hl => ?_⟩
      · simp [get_nested, getPath]
      · simp [getPath]
      · exact ⟨[], k, p, Val.scalar a, rfl, rfl, rfl⟩
      · simp only [get_nested, Except.error.injEq] at h
        subst h
        simp [isLookupError] at hl

/-- Claim C6 (counterexample): a string step on a sequence makes
`get_nested` raise `TypeError`, which is not a `LookupError`, and an
integer step on a dict that happens to have that integer key *succeeds*
— both contradicting the claim that a step of the wrong container kind
always fails with a `LookupError`. -/
theorem C6_counterexample :
    get_nested (Val.seq [Val.scalar 1]) [Key.str "a"] =
      Except.error PyErr.typeError
    ∧ isLookupError PyErr.typeError = false
    ∧ get_nested (Val.map [(Key.idx 0, Val.scalar 7)]) [Key.idx 0] =
      Except.ok (Val.scalar 7) :=
  ⟨rfl, rfl, rfl⟩

/-- Claim C6 (amended): `get_nested(doc, path)` either returns the value
reached by successive key/index lookups (exactly when the path resolves),
or fails.  It fails with a `LookupError` (`KeyError`/`IndexError`) when
some step is absent from a container of matching kind — a missing dict
key (string or integer: integer steps on dicts are ordinary key lookups
in Python) or an out-of-range list index; it fails with `TypeError`, not
a `LookupError`, when some reached node is a list addressed by a string
step or a scalar/`None` addressed by any step. -/
theorem C6_get_nested_amended (d : Val) (p : List Key) :
    (∀ v, get_nested d p = Except.ok v ↔ getPath d p = some v)
    ∧ (∀ e, get_nested d p = Except.error e → getPath d p = none)
    ∧ (get_nested d p = Except.error PyErr.typeError →
        ∃ q s r u, p = q ++ s :: r ∧ getPath d q = some u ∧
          wrongKind u s = true)
    ∧ (∀ e, get_nested d p = Except.error e → isLookupError e = true →
        ∃ q s r u, p = q ++ s :: r ∧ getPath d q = some u ∧
          absentStep u s = true) :=
  get_nested_spec p d

/-- Witness for C6's amended theorem at a concrete input. -/
theorem C6_get_nested_amended_witness :
    get_nested (Val.seq [Val.scalar 1]) [Key.str "a"] =
      Except.error PyErr.typeError
    ∧ (∃ q s r u, ([Key.str "a"] : List Key) = q ++ s :: r ∧
        getPath (Val.seq [Val.scalar 1]) q = some u ∧ wrongKind u s = true) :=
  ⟨rfl, (C6_get_nested_amended (Val.seq [Val.scalar 1]) [Key.str "a"]).2.2.1 rfl⟩

theorem alookup_setEntry_self (k : Key) (v : Val) :
    ∀ m : List (Key × Val), alookup k (setEntry m k v) = some v
  | [] => by simp [setEntry, alookup]
  | (k2, u) :: t => by
    by_cases hk : k2 = k
    · simp [setEntry, if_pos hk, alookup]
    · simp only [setEntry, if_neg hk, alookup, if_neg hk]
      exact alookup_setEntry_self k v t

theorem alookup_setEntry_ne (k k2 : Key) (v : Val) (hk : k2 ≠ k) :
    ∀ m : List (Key × Val), alookup k2 (setEntry m k v) = alookup k2 m
  | [] => by
    simp only [setEntry, alookup]
    rw [if_neg (fun h => hk h.symm)]
  | (k3, u) :: t => by
    by_cases h3 : k3 = k
    · subst h3
      simp only [setEntry, if_pos rfl, alookup]
      rw [if_neg (fun h => hk h.symm), if_neg (fun h => hk h.symm)]
    · simp only [setEntry, if_neg h3, alookup]
      by_cases h32 : k3 = k2
      · simp [if_pos h32]
      · simp only [if_neg h32]
        exact alookup_setEntry_ne k k2 v hk t

theorem padTo_length (l : List Val) (n : Nat) (f : Val) :
    (padTo l n f).length = max l.length n := by
  simp only [padTo, List.length_append, List.length_replicate]
  omega

theorem padTo_getElem_lt (l : List Val) (n : Nat) (f : Val) (i : Nat)
    (h : i < l.length) : (padTo l n f)[i]? = l[i]? := by
  simp only [padTo, List.getElem?_append]
  rw [if_pos h]

theorem set_get :
    ∀ (p : List Key) (d v d2 : Val), set_nested d p v = Except.ok d2 →
      get_nested d2 p = Except.ok v
  | [], d, v, d2, h => by simp [set_nested] at h
  | [k], d, v, d2, h => by
    cases d with
    | map m =>
      cases k with
      | str s =>
        simp only [set_nested, Except.ok.injEq] at h
        subst h
        simp [get_nested, alookup_setEntry_self]
      | idx i =>
        simp only [set_nested] at h
        by_cases hlen : m.length ≤ i
        · rw [if_pos hlen] at h
          cases h
        · rw [if_neg hlen] at h
          simp only [Except.ok.injEq] at h
          subst h
          simp [get_nested, alookup_setEntry_self]
    | seq l =>
      cases k with
      | str s => simp [set_nested] at h
      | idx i =>
        simp only [set_nested, Except.ok.injEq] at h
        subst h
        have hi : i < ((padTo l (i + 1) Val.null).set i v).length := by
          rw [List.length_set, padTo_length]
          omega
        simp only [get_nested]
        rw [List.getElem?_set_eq_of_lt v (by rw [padTo_length]; omega)]
    | null => cases k <;> simp [set_nested] at h
    | scalar a => cases k <;> simp [set_nested] at h
  | k :: k2 :: rest, d, v, d2, h => by
    cases d with
    | map m =>
      cases k with
      | str s =>
        simp only [set_nested] at h
        cases hrec : set_nested ((alookup (Key.str s) m).getD (defaultFor k2))
            (k2 :: rest) v with
        | error e => rw [hrec] at h; cases h
        | ok child2 =>
          rw [hrec] at h
          simp only [Except.ok.injEq] at h
          subst h
          have := set_get (k2 :: rest) _ v child2 hrec
          simp only [get_nested, alookup_setEntry_self]
          exact this
      | idx i =>
        simp only [set_nested] at h
        by_cases hlen : m.length ≤ i
        · rw [if_pos hlen] at h
          cases h
        · rw [if_neg hlen] at h
          cases halk : alookup (Key.idx i) m with
          | none => rw [halk] at h; cases h
          | some child =>
            simp only [halk] at h
            cases hrec : set_nested child (k2 :: rest) v with
            | error e => rw [hrec] at h; cases h
            | ok child2 =>
              rw [hrec] at h
              simp only [Except.ok.injEq] at h
              subst h
              have := set_get (k2 :: rest) _ v child2 hrec
              simp only [get_nested, alookup_setEntry_self]
              exact this
    | seq l =>
      cases k with
      | str s => simp [set_nested] at h
      | idx i =>
        simp only [set_nested] at h
        cases hrec : set_nested ((padTo l (i + 1) (defaultFor k2)).getD i
            Val.null) (k2 :: rest) v with
        | error e => rw [hrec] at h; cases h
        | ok child2 =>
          rw [hrec] at h
          simp only [Except.ok.injEq] at h
          subst h
          have := set_get (k2 :: rest) _ v child2 hrec
          simp only [get_nested]
          rw [List.getElem?_set_eq_of_lt child2 (by rw [padTo_length]; omega)]
          exact this
    | null => cases k <;> simp [set_nested] at h
    | scalar a => cases k <;> simp [set_nested] at h

/-- Claim C10: write-then-read round trip — whenever
`set_nested(d, path, v)` completes without error, `get_nested` on the
updated document returns `v` at that same path. -/
theorem C10_set_then_get (d : Val) (p : List Key) (v d2 : Val)
    (h : set_nested d p v = Except.ok d2) :
    get_nested d2 p = Except.ok v :=
  set_get p d v d2 h

/-- Witness for C10 at a concrete input: writing `7` at `["a"][1]` into
the document `\x7b"a": [0]\x7d`. -/
theorem C10_set_then_get_witness :
    set_nested (Val.map [(Key.str "a", Val.seq [Val.scalar 0])])
        [Key.str "a", Key.idx 1] (Val.scalar 7) =
      Except.ok (Val.map [(Key.str "a",
        Val.seq [Val.scalar 0, Val.scalar 7])])
    ∧ get_nested (Val.map [(Key.str "a",
        Val.seq [Val.scalar 0, Val.scalar 7])]) [Key.str "a", Key.idx 1] =
      Except.ok (Val.scalar 7) :=
  ⟨rfl, C10_set_then_get (Val.map [(Key.str "a", Val.seq [Val.scalar 0])])
    [Key.str "a", Key.idx 1] (Val.scalar 7) _ rfl⟩

theorem alookup_append_ne (k0 kk : Key) (w : Val) (h : k0 ≠ kk) :
    ∀ m : List (Key × Val), alookup k0 (m ++ [(kk, w)]) = alookup k0 m
  | [] => by
    simp only [List.nil_append, alookup]
    rw [if_neg (fun hc => h hc.symm)]
  | (k3, u) :: t => by
    simp only [List.cons_append, alookup]
    by_cases h3 : k3 = k0
    · rw [if_pos h3, if_pos h3]
    · rw [if_neg h3, if_neg h3]
      exact alookup_append_ne k0 kk w h t

theorem padTo_getD_lt (l : List Val) (n : Nat) (f : Val) (i : Nat) (w : Val)
    (h : l[i]? = some w) : (padTo l n f).getD i Val.null = w := by
  have hlt : i < l.length := by
    rcases List.getElem?_eq_some_iff.mp h with ⟨hl, _⟩
    exact hl
  rw [List.getD_eq_getElem?_getD, padTo_getElem_lt l n f i hlt, h]
  rfl

theorem getPath_map_cons_of {m : List (Key × Val)} {k : Key} {w : Val}
    (halk : alookup k m = some w) (q : List Key) :
    getPath (Val.map m) (k :: q) = getPath w q := by
  simp [getPath, halk]

theorem getPath_map_cons_none {m : List (Key × Val)} {k : Key}
    (halk : alookup k m = none) (q : List Key) :
    getPath (Val.map m) (k :: q) = none := by
  simp [getPath, halk]

theorem getPath_seq_cons_of {l : List Val} {j : Nat} {w : Val}
    (hget : l[j]? = some w) (q : List Key) :
    getPath (Val.seq l) (Key.idx j :: q) = getPath w q := by
  simp [getPath, hget]

theorem getPath_seq_cons_none {l : List Val} {j : Nat}
    (hget : l[j]? = none) (q : List Key) :
    getPath (Val.seq l) (Key.idx j :: q) = none := by
  simp [getPath, hget]

theorem getPath_map_cons_cases {m : List (Key × Val)} {k : Key} {u : Val}
    {q : List Key} (h : getPath (Val.map m) (k :: q) = some u) :
    ∃ w, alookup k m = some w ∧ getPath w q = some u := by
  cases halk : alookup k m with
  | none => rw [getPath_map_cons_none halk] at h; cases h
  | some w => exact ⟨w, rfl, by rw [getPath_map_cons_of halk] at h; exact h⟩

theorem getPath_seq_cons_cases {l : List Val} {j : Nat} {u : Val}
    {q : List Key} (h : getPath (Val.seq l) (Key.idx j :: q) = some u) :
    ∃ w, l[j]? = some w ∧ getPath w q = some u := by
  cases hget : l[j]? with
  | none => rw [getPath_seq_cons_none hget] at h; cases h
  | some w => exact ⟨w, rfl, by rw [getPath_seq_cons_of hget] at h; exact h⟩

theorem set_frame :
    ∀ (p : List Key) (d v d2 : Val), set_nested d p v = Except.ok d2 →
      ∀ q : List Key, q = p ∨ ¬ p <+: q → ∀ u, getPath d q = some u →
        ∃ u2, getPath d2 q = some u2 ∧
          (¬ p <+: q → ∀ l0, u = Val.seq l0 →
            ∃ l2, u2 = Val.seq l2 ∧ l0.length ≤ l2.length)
  | [], d, v, d2, h => by simp [set_nested] at h
  | [k], d, v, d2, h => by
    intro q hq u hu
    cases d with
    | map m =>
      have hd2 : d2 = Val.map (setEntry m k v) := by
        cases k with
        | str s =>
          simp only [set_nested, Except.ok.injEq] at h
          exact h.symm
        | idx i =>
          simp only [set_nested] at h
          by_cases hlen : m.length ≤ i
          · rw [if_pos hlen] at h
            cases h
          · rw [if_neg hlen] at h
            simp only [Except.ok.injEq] at h
            exact h.symm
      subst hd2
      cases q with
      | nil =>
        refine ⟨Val.map (setEntry m k v), rfl, fun _ l0 heq => ?_⟩
        simp only [getPath, Option.some.injEq] at hu
        rw [← hu] at heq
        cases heq
      | cons k0 q2 =>
        by_cases hk0 : k0 = k
        · subst hk0
          have hpre : [k0] <+: k0 :: q2 := ⟨q2, rfl⟩
          rcases hq with hq | hq
          · obtain ⟨rfl⟩ : q2 = [] := by
              simpa using congrArg List.tail hq
            refine ⟨v, ?_, fun hnp _ _ => absurd hpre hnp⟩
            rw [getPath_map_cons_of (alookup_setEntry_self k0 v m) []]
            simp [getPath]
          · exact absurd hpre hq
        · obtain ⟨w, halk, hw⟩ := getPath_map_cons_cases hu
          have halk2 : alookup k0 (setEntry m k v) = some w := by
            rw [alookup_setEntry_ne k k0 v hk0 m, halk]
          rw [getPath_map_cons_of halk2 q2]
          exact ⟨u, hw, fun _ l0 heq => ⟨l0, heq ▸ rfl, le_refl _⟩⟩
    | seq l =>
      cases k with
      | str s => simp [set_nested] at h
      | idx i =>
        simp only [set_nested, Except.ok.injEq] at h
        subst h
        cases q with
        | nil =>
          simp only [getPath, Option.some.injEq] at hu
          refine ⟨Val.seq ((padTo l (i + 1) Val.null).set i v), rfl,
            fun _ l0 heq => ?_⟩
          rw [← hu] at heq
          cases heq
          refine ⟨(padTo l (i + 1) Val.null).set i v, rfl, ?_⟩
          rw [List.length_set, padTo_length]
          omega
        | cons k0 q2 =>
          cases k0 with
          | str s2 => simp [getPath] at hu
          | idx j =>
            by_cases hj : j = i
            · subst hj
              have hpre : [Key.idx j] <+: Key.idx j :: q2 := ⟨q2, rfl⟩
              rcases hq with hq | hq
              · obtain ⟨rfl⟩ : q2 = [] := by
                  simpa using congrArg List.tail hq
                refine ⟨v, ?_, fun hnp _ _ => absurd hpre hnp⟩
                rw [getPath_seq_cons_of
                  (List.getElem?_set_eq_of_lt v (by rw [padTo_length]; omega)) []]
                simp [getPath]
              · exact absurd hpre hq
            · obtain ⟨w, hget, hw⟩ := getPath_seq_cons_cases hu
              have hjlt : j < l.length := by
                rcases List.getElem?_eq_some_iff.mp hget with ⟨hl, _⟩
                exact hl
              have hget2 : ((padTo l (i + 1) Val.null).set i v)[j]? = some w := by
                rw [List.getElem?_set_ne (fun hc => hj hc.symm),
                  padTo_getElem_lt l (i + 1) Val.null j hjlt, hget]
              rw [getPath_seq_cons_of hget2 q2]
              exact ⟨u, hw, fun _ l0 heq => ⟨l0, heq ▸ rfl, le_refl _⟩⟩
    | null => cases k <;> simp [set_nested] at h
    | scalar a => cases k <;> simp [set_nested] at h
  | k :: k2 :: rest, d, v, d2, h => by
    intro q hq u hu
    cases d with
    | map m =>
      cases k with
      | str s =>
        simp only [set_nested] at h
        cases hrec : set_nested ((alookup (Key.str s) m).getD (defaultFor k2))
            (k2 :: rest) v with
        | error e => rw [hrec] at h; cases h
        | ok child2 =>
          rw [hrec] at h
          simp only [Except.ok.injEq] at h
          subst h
          cases q with
          | nil =>
            refine ⟨_, rfl, fun _ l0 heq => ?_⟩
            simp only [getPath, Option.some.injEq] at hu
            rw [← hu] at heq
            cases heq
          | cons k0 q2 =>
            by_cases hk0 : k0 = Key.str s
            · subst hk0
              obtain ⟨w, halk, hw⟩ := getPath_map_cons_cases hu
              have hm1 : (if (alookup (Key.str s) m).isSome then m
                  else m ++ [(Key.str s, defaultFor k2)]) = m :=
                if_pos (by rw [halk]; rfl)
              have hchild : (alookup (Key.str s) m).getD (defaultFor k2) = w := by
                rw [halk]
                rfl
              rw [hchild] at hrec
              have hq2 : q2 = k2 :: rest ∨ ¬ (k2 :: rest) <+: q2 := by
                rcases hq with hq | hq
                · left
                  simpa using congrArg List.tail hq
                · right
                  intro hc
                  exact hq (List.cons_prefix_cons.mpr ⟨rfl, hc⟩)
              obtain ⟨u2, hu2, hlen2⟩ := set_frame (k2 :: rest) w v child2
                hrec q2 hq2 u hw
              refine ⟨u2, ?_, fun hnp => hlen2 (fun hc =>
                hnp (List.cons_prefix_cons.mpr ⟨rfl, hc⟩))⟩
              rw [hm1]
              rw [getPath_map_cons_of (alookup_setEntry_self (Key.str s)
                child2 m) q2]
              exact hu2
            · obtain ⟨w, halk, hw⟩ := getPath_map_cons_cases hu
              have halk2 : alookup k0 (setEntry (if (alookup (Key.str s)
                  m).isSome then m else m ++ [(Key.str s, defaultFor k2)])
                  (Key.str s) child2) = some w := by
                rw [alookup_setEntry_ne _ k0 child2 hk0]
                by_cases hsome : (alookup (Key.str s) m).isSome
                · rw [if_pos hsome, halk]
                · rw [if_neg hsome,
                    alookup_append_ne k0 (Key.str s) (defaultFor k2) hk0 m,
                    halk]
              rw [getPath_map_cons_of halk2 q2]
              exact ⟨u, hw, fun _ l0 heq => ⟨l0, heq ▸ rfl, le_refl _⟩⟩
      | idx i =>
        simp only [set_nested] at h
        by_cases hlen : m.length ≤ i
        · rw [if_pos hlen] at h
          cases h
        · rw [if_neg hlen] at h
          cases halk : alookup (Key.idx i) m with
          | none => rw [halk] at h; cases h
          | some child =>
            simp only [halk] at h
            cases hrec : set_nested child (k2 :: rest) v with
            | error e => rw [hrec] at h; cases h
            | ok child2 =>
              rw [hrec] at h
              simp only [Except.ok.injEq] at h
              subst h
              cases q with
              | nil =>
                refine ⟨_, rfl, fun _ l0 heq => ?_⟩
                simp only [getPath, Option.some.injEq] at hu
                rw [← hu] at heq
                cases heq
              | cons k0 q2 =>
                by_cases hk0 : k0 = Key.idx i
                · subst hk0
                  obtain ⟨w, halk0, hw⟩ := getPath_map_cons_cases hu
                  have hwchild : w = child := by
                    rw [halk] at halk0
                    cases halk0
                    rfl
                  subst hwchild
                  have hq2 : q2 = k2 :: rest ∨ ¬ (k2 :: rest) <+: q2 := by
                    rcases hq with hq | hq
                    · left
                      simpa using congrArg List.tail hq
                    · right
                      intro hc
                      exact hq (List.cons_prefix_cons.mpr ⟨rfl, hc⟩)
                  obtain ⟨u2, hu2, hlen2⟩ := set_frame (k2 :: rest) w v
                    child2 hrec q2 hq2 u hw
                  refine ⟨u2, ?_, fun hnp => hlen2 (fun hc =>
                    hnp (List.cons_prefix_cons.mpr ⟨rfl, hc⟩))⟩
                  rw [getPath_map_cons_of (alookup_setEntry_self (Key.idx i)
                    child2 m) q2]
                  exact hu2
                · obtain ⟨w, halk0, hw⟩ := getPath_map_cons_cases hu
                  have halk2 : alookup k0 (setEntry m (Key.idx i) child2) =
                      some w := by
                    rw [alookup_setEntry_ne _ k0 child2 hk0, halk0]
                  rw [getPath_map_cons_of halk2 q2]
                  exact ⟨u, hw, fun _ l0 heq => ⟨l0, heq ▸ rfl, le_refl _⟩⟩
    | seq l =>
      cases k with
      | str s => simp [set_nested] at h
      | idx i =>
        simp only [set_nested] at h
        cases hrec : set_nested ((padTo l (i + 1) (defaultFor k2)).getD i
            Val.null) (k2 :: rest) v with
        | error e => rw [hrec] at h; cases h
        | ok child2 =>
          rw [hrec] at h
          simp only [Except.ok.injEq] at h
          subst h
          cases q with
          | nil =>
            simp only [getPath, Option.some.injEq] at hu
            refine ⟨_, rfl, fun _ l0 heq => ?_⟩
            rw [← hu] at heq
            cases heq
            refine ⟨(padTo l (i + 1) (defaultFor k2)).set i child2, rfl, ?_⟩
            rw [List.length_set, padTo_length]
            omega
          | cons k0 q2 =>
            cases k0 with
            | str s2 => simp [getPath] at hu
            | idx j =>
              by_cases hj : j = i
              · subst hj
                obtain ⟨w, hget, hw⟩ := getPath_seq_cons_cases hu
                have hchild : (padTo l (j + 1) (defaultFor k2)).getD j
                    Val.null = w :=
                  padTo_getD_lt l (j + 1) (defaultFor k2) j w hget
                rw [hchild] at hrec
                have hq2 : q2 = k2 :: rest ∨ ¬ (k2 :: rest) <+: q2 := by
                  rcases hq with hq | hq
                  · left
                    simpa using congrArg List.tail hq
                  · right
                    intro hc
                    exact hq (List.cons_prefix_cons.mpr ⟨rfl, hc⟩)
                obtain ⟨u2, hu2, hlen2⟩ := set_frame (k2 :: rest) w v
                  child2 hrec q2 hq2 u hw
                refine ⟨u2, ?_, fun hnp => hlen2 (fun hc =>
                  hnp (List.cons_prefix_cons.mpr ⟨rfl, hc⟩))⟩
                rw [getPath_seq_cons_of (List.getElem?_set_eq_of_lt child2
                  (by rw [padTo_length]; omega)) q2]
                exact hu2
              · obtain ⟨w, hget, hw⟩ := getPath_seq_cons_cases hu
                have hjlt : j < l.length := by
                  rcases List.getElem?_eq_some_iff.mp hget with ⟨hl, _⟩
                  exact hl
                have hget2 : ((padTo l (i + 1) (defaultFor k2)).set i
                    child2)[j]? = some w := by
                  rw [List.getElem?_set_ne (fun hc => hj hc.symm),
                    padTo_getElem_lt l (i + 1) (defaultFor k2) j hjlt, hget]
                rw [getPath_seq_cons_of hget2 q2]
                exact ⟨u, hw, fun _ l0 heq => ⟨l0, heq ▸ rfl, le_refl _⟩⟩
    | null => cases k <;> simp [set_nested] at h
    | scalar a => cases k <;> simp [set_nested] at h

/-- Claim C7: `set_nested` never shrinks existing structure.  For every
successful `set_nested(d, path, value)` with non-empty `path`, every
path of `d` that does not descend strictly below the written `path` is
still present afterwards (in particular every dict key outside the
overwritten subtree is still present), and every list of `d` at such a
position is at least as long as before: the operation only creates
missing intermediate containers, pads lists forward with placeholders,
or overwrites the addressed position itself. -/
theorem C7_set_nested_never_shrinks (d : Val) (p : List Key) (v d2 : Val)
    (_hne : p ≠ []) (h : set_nested d p v = Except.ok d2) (q : List Key)
    (hq : q = p ∨ ¬ p <+: q) :
    (∀ u, getPath d q = some u → ∃ u2, getPath d2 q = some u2)
    ∧ (∀ l0, ¬ p <+: q → getPath d q = some (Val.seq l0) →
        ∃ l2, getPath d2 q = some (Val.seq l2) ∧ l0.length ≤ l2.length) := by
  constructor
  · intro u hu
    obtain ⟨u2, hu2, _⟩ := set_frame p d v d2 h q hq u hu
    exact ⟨u2, hu2⟩
  · intro l0 hnp hu
    obtain ⟨u2, hu2, hlen⟩ := set_frame p d v d2 h q hq _ hu
    obtain ⟨l2, rfl, hle⟩ := hlen hnp l0 rfl
    exact ⟨l2, hu2, hle⟩

/-- Witness for C7 at a concrete input: writing `7` at `["a"][2]` into
`\x7b"a": [0], "b": 5\x7d` pads the inner list; the untouched paths survive
and the list at `["a"]` does not shrink. -/
theorem C7_set_nested_never_shrinks_witness :
    ([Key.str "a", Key.idx 2] : List Key) ≠ []
    ∧ set_nested (Val.map [(Key.str "a", Val.seq [Val.scalar 0]),
          (Key.str "b", Val.scalar 5)]) [Key.str "a", Key.idx 2]
        (Val.scalar 7) =
      Except.ok (Val.map [(Key.str "a",
        Val.seq [Val.scalar 0, Val.null, Val.scalar 7]),
        (Key.str "b", Val.scalar 5)])
    ∧ (([Key.str "a"] : List Key) = [Key.str "a", Key.idx 2] ∨
        ¬ ([Key.str "a", Key.idx 2] : List Key) <+: [Key.str "a"])
    ∧ ((∀ u, getPath (Val.map [(Key.str "a", Val.seq [Val.scalar 0]),
          (Key.str "b", Val.scalar 5)]) [Key.str "a"] = some u →
        ∃ u2, getPath (Val.map [(Key.str "a",
          Val.seq [Val.scalar 0, Val.null, Val.scalar 7]),
          (Key.str "b", Val.scalar 5)]) [Key.str "a"] = some u2)
      ∧ (∀ l0, ¬ ([Key.str "a", Key.idx 2] : List Key) <+: [Key.str "a"] →
          getPath (Val.map [(Key.str "a", Val.seq [Val.scalar 0]),
            (Key.str "b", Val.scalar 5)]) [Key.str "a"] =
            some (Val.seq l0) →
          ∃ l2, getPath (Val.map [(Key.str "a",
            Val.seq [Val.scalar 0, Val.null, Val.scalar 7]),
            (Key.str "b", Val.scalar 5)]) [Key.str "a"] =
            some (Val.seq l2) ∧ l0.length ≤ l2.length)) :=
  ⟨by decide, rfl, Or.inr (by decide),
   C7_set_nested_never_shrinks
     (Val.map [(Key.str "a", Val.seq [Val.scalar 0]),
       (Key.str "b", Val.scalar 5)])
     [Key.str "a", Key.idx 2] (Val.scalar 7)
     (Val.map [(Key.str "a", Val.seq [Val.scalar 0, Val.null, Val.scalar 7]),
       (Key.str "b", Val.scalar 5)])
     (by decide) rfl [Key.str "a"] (Or.inr (by decide))⟩

mutual

/-- A sequence-free document with duplicate-free dict keys at every
level: the fragment of the data model on which the amended base-subset
property is stated.  (Parsed YAML dicts always have unique keys.) -/
def plainDoc : Val → Bool
  | .null => true
  | .scalar _ => true
  | .map m => decide ((m.map Prod.fst).Nodup) && plainDocM m
  | .seq _ => false

/-- All entry values are plain documents. -/
def plainDocM : List (Key × Val) → Bool
  | [] => true
  | (_, v) :: t => plainDoc v && plainDocM t

end

theorem plainDocM_mem {m : List (Key × Val)} (h : plainDocM m = true) :
    ∀ {k : Key} {v : Val}, (k, v) ∈ m → plainDoc v = true := by
  induction m with
  | nil => intro k v hv; cases hv
  | cons q t ih =>
    obtain ⟨k2, v2⟩ := q
    simp only [plainDocM, Bool.and_eq_true] at h
    intro k v hv
    rcases List.mem_cons.mp hv with hv | hv
    · cases hv
      exact h.1
    · exact ih h.2 hv

theorem alookup_mem {k : Key} :
    ∀ {m : List (Key × Val)} {v : Val}, alookup k m = some v → (k, v) ∈ m
  | [], v, h => by simp [alookup] at h
  | (k2, u) :: t, v, h => by
    by_cases hk : k2 = k
    · subst hk
      have h2 : u = v := by simpa [alookup] using h
      subst h2
      exact List.mem_cons_self _ _
    · simp only [alookup, if_neg hk] at h
      exact List.mem_cons_of_mem _ (alookup_mem h)

theorem plainDoc_alookup {m : List (Key × Val)} {k : Key} {v : Val}
    (hp : plainDoc (Val.map m) = true) (h : alookup k m = some v) :
    plainDoc v = true := by
  simp only [plainDoc, Bool.and_eq_true] at hp
  exact plainDocM_mem hp.2 (alookup_mem h)

theorem alookup_isSome_of_mem_keys {k : Key} :
    ∀ {m : List (Key × Val)}, k ∈ m.map Prod.fst → (alookup k m).isSome = true
  | [], h => by simp at h
  | (k2, u) :: t, h => by
    by_cases hk : k2 = k
    · simp [alookup, if_pos hk]
    · simp only [alookup, if_neg hk]
      rcases List.mem_cons.mp h with h | h
      · exact absurd h.symm hk
      · exact alookup_isSome_of_mem_keys h

theorem pruneEntries_keys_sublist :
    ∀ m : List (Key × Val),
      ((pruneEntries m).map Prod.fst).Sublist (m.map Prod.fst)
  | [] => List.Sublist.refl _
  | (k, v) :: t => by
    simp only [pruneEntries]
    by_cases hd : droppable (remove_empty_structures v) = true
    · rw [if_pos hd]
      simp only [List.map_cons]
      exact List.Sublist.cons _ (pruneEntries_keys_sublist t)
    · rw [if_neg hd]
      simp only [List.map_cons]
      exact List.Sublist.cons₂ _ (pruneEntries_keys_sublist t)

theorem plainDocM_pruneEntries_of (m : List (Key × Val))
    (IH : ∀ p ∈ m, plainDoc (remove_empty_structures p.2) = true) :
    plainDocM (pruneEntries m) = true := by
  induction m with
  | nil => rfl
  | cons q t ih =>
    obtain ⟨k, v⟩ := q
    simp only [pruneEntries]
    by_cases hd : droppable (remove_empty_structures v) = true
    · rw [if_pos hd]
      exact ih (fun p hp => IH p (List.mem_cons_of_mem _ hp))
    · rw [if_neg hd]
      simp only [plainDocM, Bool.and_eq_true]
      exact ⟨IH (k, v) (List.mem_cons_self _ _),
        ih (fun p hp => IH p (List.mem_cons_of_mem _ hp))⟩

theorem plainDoc_prune (v : Val) (hp : plainDoc v = true) :
    plainDoc (remove_empty_structures v) = true := by
  have main : ∀ n, ∀ v : Val, sizeV v ≤ n → plainDoc v = true →
      plainDoc (remove_empty_structures v) = true := by
    intro n
    induction n with
    | zero =>
      intro v hv
      exact absurd (Nat.lt_of_lt_of_le (sizeV_pos v) hv) (by simp)
    | succ n ih =>
      intro v hv hp
      cases v with
      | null => exact hp
      | scalar a => exact hp
      | seq l => simp [plainDoc] at hp
      | map m =>
        have hm : sizeM m ≤ n := by
          simp only [sizeV] at hv
          omega
        simp only [plainDoc, Bool.and_eq_true, decide_eq_true_eq] at hp
        simp only [remove_empty_structures, plainDoc, Bool.and_eq_true,
          decide_eq_true_eq]
        constructor
        · exact hp.1.sublist (pruneEntries_keys_sublist m)
        · exact plainDocM_pruneEntries_of m (fun p hpm =>
            ih p.2 (le_trans (sizeM_mem hpm) hm) (plainDocM_mem hp.2
              (by rw [← Prod.mk.eta (p := p)] at hpm; exact hpm)))
  exact main (sizeV v) v le_rfl hp

theorem prune_null_iff (u : Val) :
    remove_empty_structures u = Val.null ↔ u = Val.null := by
  cases u <;> simp [remove_empty_structures]

theorem prune_scalar_iff (u : Val) (a : Int) :
    remove_empty_structures u = Val.scalar a ↔ u = Val.scalar a := by
  cases u <;> simp [remove_empty_structures]

theorem prune_isMap_iff (u : Val) :
    (remove_empty_structures u).isMap = u.isMap := by
  cases u <;> simp [remove_empty_structures, Val.isMap]

theorem alookup_pruneEntries {k : Key} :
    ∀ {m : List (Key × Val)}, (m.map Prod.fst).Nodup →
      ∀ {w : Val}, alookup k (pruneEntries m) = some w →
        ∃ u0, alookup k m = some u0 ∧ w = remove_empty_structures u0
  | [], _, w, h => by simp [pruneEntries, alookup] at h
  | (k2, v2) :: t, hnd, w, h => by
    have hk2nin : k2 ∉ t.map Prod.fst := by
      simp only [List.map_cons, List.nodup_cons] at hnd
      exact hnd.1
    have hnd2 : (t.map Prod.fst).Nodup := by
      simp only [List.map_cons, List.nodup_cons] at hnd
      exact hnd.2
    simp only [pruneEntries] at h
    by_cases hd : droppable (remove_empty_structures v2) = true
    · rw [if_pos hd] at h
      obtain ⟨u0, halk, hw⟩ := alookup_pruneEntries hnd2 h
      by_cases hk : k2 = k
      · subst hk
        exact absurd (List.mem_map_of_mem Prod.fst (alookup_mem halk)) hk2nin
      · refine ⟨u0, ?_, hw⟩
        simp only [alookup, if_neg hk]
        exact halk
    · rw [if_neg hd] at h
      simp only [alookup] at h ⊢
      by_cases hk : k2 = k
      · rw [if_pos hk] at h ⊢
        cases h
        exact ⟨v2, rfl, rfl⟩
      · rw [if_neg hk] at h ⊢
        exact alookup_pruneEntries hnd2 h

theorem alookup_map_keys (f : Key → Val) (k0 : Key) :
    ∀ ks : List Key, alookup k0 (ks.map (fun k => (k, f k))) =
      if k0 ∈ ks then some (f k0) else none
  | [] => by simp [alookup]
  | k :: ks => by
    simp only [List.map_cons, alookup]
    by_cases hk : k = k0
    · subst hk
      simp [List.mem_cons]
    · rw [if_neg hk, alookup_map_keys f k0 ks]
      by_cases hmem : k0 ∈ ks
      · rw [if_pos hmem, if_pos (List.mem_cons_of_mem _ hmem)]
      · rw [if_neg hmem, if_neg ?_]
        intro hc
        rcases List.mem_cons.mp hc with hc | hc
        · exact hk hc.symm
        · exact hmem hc

theorem childAt_plain {k : Key} {d : Val} (hp : plainDoc d = true) :
    plainDoc (childAt k d) = true := by
  cases d with
  | map m =>
    simp only [childAt]
    cases halk : alookup k m with
    | none => rfl
    | some w => exact plainDoc_alookup hp halk
  | null => rfl
  | scalar a => rfl
  | seq l => rfl

theorem getPath_cons_keyIn {k : Key} {x : Val} (hk : keyIn k x = true)
    (q : List Key) : getPath x (k :: q) = getPath (childAt k x) q := by
  cases x with
  | map m =>
    cases halk : alookup k m with
    | none => simp [keyIn, halk] at hk
    | some w =>
      rw [getPath_map_cons_of halk q]
      simp [childAt, halk]
  | null => simp [keyIn] at hk
  | scalar a => simp [keyIn] at hk
  | seq l => simp [keyIn] at hk

theorem getPath_prune_plain :
    ∀ (x : Val), plainDoc x = true → ∀ (p : List Key) (v : Val),
      getPath (remove_empty_structures x) p = some v →
      ∃ u, getPath x p = some u ∧ v = remove_empty_structures u := by
  have main : ∀ n, ∀ x : Val, sizeV x ≤ n → plainDoc x = true →
      ∀ (p : List Key) (v : Val),
        getPath (remove_empty_structures x) p = some v →
        ∃ u, getPath x p = some u ∧ v = remove_empty_structures u := by
    intro n
    induction n with
    | zero =>
      intro x hx
      exact absurd (Nat.lt_of_lt_of_le (sizeV_pos x) hx) (by simp)
    | succ n ih =>
      intro x hx hp p v h
      cases x with
      | null =>
        cases p with
        | nil =>
          simp only [remove_empty_structures, getPath, Option.some.injEq] at h
          exact ⟨Val.null, rfl, by rw [← h]; rfl⟩
        | cons k q => simp [remove_empty_structures, getPath] at h
      | scalar a =>
        cases p with
        | nil =>
          simp only [remove_empty_structures, getPath, Option.some.injEq] at h
          exact ⟨Val.scalar a, rfl, by rw [← h]; rfl⟩
        | cons k q => simp [remove_empty_structures, getPath] at h
      | seq l => simp [plainDoc] at hp
      | map m =>
        have hm : sizeM m ≤ n := by
          simp only [sizeV] at hx
          omega
        have hpm : plainDocM m = true ∧ (m.map Prod.fst).Nodup := by
          simp only [plainDoc, Bool.and_eq_true, decide_eq_true_eq] at hp
          exact ⟨hp.2, hp.1⟩
        cases p with
        | nil =>
          simp only [getPath, Option.some.injEq] at h
          exact ⟨Val.map m, rfl, h.symm⟩
        | cons k q =>
          simp only [remove_empty_structures] at h
          obtain ⟨w, halkP, hw⟩ := getPath_map_cons_cases h
          obtain ⟨u0, halk, rfl⟩ := alookup_pruneEntries hpm.2 halkP
          have hu0size : sizeV u0 ≤ n :=
            le_trans (alookup_size halk) hm
          have hu0plain : plainDoc u0 = true := plainDoc_alookup hp halk
          obtain ⟨u, hu, hv⟩ := ih u0 hu0size hu0plain q v hw
          exact ⟨u, by rw [getPath_map_cons_of halk q]; exact hu, hv⟩
  exact fun x hp p v h => main (sizeV x) x le_rfl hp p v h

theorem alookup_getD_size (k : Key) (m : List (Key × Val)) :
    sizeV ((alookup k m).getD Val.null) < sizeV (Val.map m) := by
  cases h : alookup k m with
  | none =>
    simp only [Option.getD_none, sizeV]
    omega
  | some v =>
    have := alookup_size h
    simp only [Option.getD_some, sizeV]
    omega

theorem plain_alookup_getD {m : List (Key × Val)} {k : Key}
    (hp : plainDoc (Val.map m) = true) :
    plainDoc ((alookup k m).getD Val.null) = true := by
  cases halk : alookup k m with
  | none => rfl
  | some w => exact plainDoc_alookup hp halk

theorem plainDocM_map_keys (f : Key → Val) :
    ∀ ks : List Key, (∀ k ∈ ks, plainDoc (f k) = true) →
      plainDocM (ks.map (fun k => (k, f k))) = true
  | [], _ => rfl
  | k :: ks, h => by
    simp only [List.map_cons, plainDocM, Bool.and_eq_true]
    exact ⟨h k (List.mem_cons_self _ _),
      plainDocM_map_keys f ks (fun k2 hk2 => h k2 (List.mem_cons_of_mem _ hk2))⟩

theorem keys_map_keys (f : Key → Val) :
    ∀ ks : List Key, (ks.map (fun k => (k, f k))).map Prod.fst = ks
  | [] => rfl
  | k :: ks => by
    simp only [List.map_cons]
    rw [keys_map_keys f ks]

theorem commonKeys_nodup {m : List (Key × Val)} (rest : List Val)
    (h : (m.map Prod.fst).Nodup) : (commonKeys m rest).Nodup :=
  h.filter _

theorem di_plainDoc : ∀ (d : Val) (rest : List Val), plainDoc d = true →
    (∀ r ∈ rest, plainDoc r = true) → plainDoc (di d rest) = true := by
  have main : ∀ n, ∀ (d : Val) (rest : List Val), sizeV d ≤ n →
      plainDoc d = true → (∀ r ∈ rest, plainDoc r = true) →
      plainDoc (di d rest) = true := by
    intro n
    induction n with
    | zero =>
      intro d rest hd
      exact absurd (Nat.lt_of_lt_of_le (sizeV_pos d) hd) (by simp)
    | succ n ih =>
      intro d rest hd hp hrest
      cases d with
      | null =>
        rw [di_null_eq]
        by_cases hall : rest.all (fun x => decide (x = Val.null)) = true
        · rw [if_pos hall]
          rfl
        · rw [if_neg hall]
          rfl
      | scalar a =>
        rw [di_scalar_eq]
        by_cases hall : rest.all (fun x => decide (x = Val.scalar a)) = true
        · rw [if_pos hall]
          rfl
        · rw [if_neg hall]
          rfl
      | seq l => simp [plainDoc] at hp
      | map m =>
        by_cases hall : rest.all Val.isMap = true
        · rw [di_map_eq m rest hall]
          apply plainDoc_prune
          simp only [plainDoc, Bool.and_eq_true, decide_eq_true_eq]
          have hpk : (m.map Prod.fst).Nodup := by
            simp only [plainDoc, Bool.and_eq_true, decide_eq_true_eq] at hp
            exact hp.1
          refine ⟨?_, ?_⟩
          · rw [keys_map_keys]
            exact commonKeys_nodup rest hpk
          · apply plainDocM_map_keys
            intro k _
            apply ih _ _ (by
              have h1 := alookup_getD_size k m
              omega)
            · exact plain_alookup_getD hp
            · intro r2 hr2
              rcases List.mem_map.mp hr2 with ⟨r, hr, rfl⟩
              exact childAt_plain (hrest r hr)
        · rw [di_map_not_all m rest hall]
          rfl
  exact fun d rest hp hrest => main (sizeV d) d rest le_rfl hp hrest

theorem di_subset : ∀ (d : Val) (rest : List Val), plainDoc d = true →
    (∀ r ∈ rest, plainDoc r = true) →
    ∀ (p : List Key) (v : Val), getPath (di d rest) p = some v →
      v ≠ Val.null → ∀ x ∈ d :: rest, ∃ w, getPath x p = some w ∧
        (v.isScalar = true → w = v) ∧ (v.isMap = true → w.isMap = true) := by
  have main : ∀ n, ∀ (d : Val) (rest : List Val), sizeV d ≤ n →
      plainDoc d = true → (∀ r ∈ rest, plainDoc r = true) →
      ∀ (p : List Key) (v : Val), getPath (di d rest) p = some v →
        v ≠ Val.null → ∀ x ∈ d :: rest, ∃ w, getPath x p = some w ∧
          (v.isScalar = true → w = v) ∧ (v.isMap = true → w.isMap = true) := by
    intro n
    induction n with
    | zero =>
      intro d rest hd
      exact absurd (Nat.lt_of_lt_of_le (sizeV_pos d) hd) (by simp)
    | succ n ih =>
      intro d rest hd hp hrest p v hget hvn x hx
      cases d with
      | null =>
        exfalso
        rw [di_null_eq] at hget
        have hnull : getPath Val.null p = some v := by
          by_cases hall : rest.all (fun y => decide (y = Val.null)) = true
          · rw [if_pos hall] at hget
            exact hget
          · rw [if_neg hall] at hget
            exact hget
        cases p with
        | nil =>
          simp only [getPath, Option.some.injEq] at hnull
          exact hvn hnull.symm
        | cons k q => simp [getPath] at hnull
      | scalar a =>
        rw [di_scalar_eq] at hget
        by_cases hall : rest.all (fun y => decide (y = Val.scalar a)) = true
        · rw [if_pos hall] at hget
          cases p with
          | nil =>
            simp only [getPath, Option.some.injEq] at hget
            subst hget
            have hxa : x = Val.scalar a := by
              rcases List.mem_cons.mp hx with hx | hx
              · exact hx
              · have := List.all_eq_true.mp hall x hx
                simpa using this
            subst hxa
            refine ⟨Val.scalar a, by simp [getPath], fun _ => rfl, fun hc => ?_⟩
            simp [Val.isMap] at hc
          | cons k q => simp [getPath] at hget
        · rw [if_neg hall] at hget
          exfalso
          cases p with
          | nil =>
            simp only [getPath, Option.some.injEq] at hget
            exact hvn hget.symm
          | cons k q => simp [getPath] at hget
      | seq l => simp [plainDoc] at hp
      | map m =>
        by_cases hall : rest.all Val.isMap = true
        · rw [di_map_eq m rest hall] at hget
          have hplainE : plainDoc (Val.map ((commonKeys m rest).map
              (fun k => (k, di ((alookup k m).getD Val.null)
                (rest.map (childAt k)))))) = true := by
            simp only [plainDoc, Bool.and_eq_true, decide_eq_true_eq]
            have hpk : (m.map Prod.fst).Nodup := by
              simp only [plainDoc, Bool.and_eq_true, decide_eq_true_eq] at hp
              exact hp.1
            refine ⟨?_, ?_⟩
            · rw [keys_map_keys]
              exact commonKeys_nodup rest hpk
            · apply plainDocM_map_keys
              intro k _
              apply di_plainDoc
              · exact plain_alookup_getD hp
              · intro r2 hr2
                rcases List.mem_map.mp hr2 with ⟨r, hr, rfl⟩
                exact childAt_plain (hrest r hr)
          obtain ⟨u, hu, rfl⟩ := getPath_prune_plain _ hplainE p v hget
          have hun : u ≠ Val.null := fun hc => hvn (by rw [hc]; rfl)
          cases p with
          | nil =>
            simp only [getPath, Option.some.injEq] at hu
            subst hu
            refine ⟨x, by simp [getPath], fun hs => ?_, fun hm2 => ?_⟩
            · simp [remove_empty_structures, Val.isScalar] at hs
            · rcases List.mem_cons.mp hx with hx | hx
              · subst hx
                rfl
              · exact List.all_eq_true.mp hall x hx
          | cons k p2 =>
            obtain ⟨w0, halkE, hw0⟩ := getPath_map_cons_cases hu
            rw [alookup_map_keys (fun k => di ((alookup k m).getD Val.null)
              (rest.map (childAt k))) k (commonKeys m rest)] at halkE
            by_cases hmem : k ∈ commonKeys m rest
            · rw [if_pos hmem] at halkE
              cases halkE
              have hsub := ih ((alookup k m).getD Val.null)
                (rest.map (childAt k))
                (by have h1 := alookup_getD_size k m; omega)
                (plain_alookup_getD hp)
                (fun r2 hr2 => by
                  rcases List.mem_map.mp hr2 with ⟨r, hr, rfl⟩
                  exact childAt_plain (hrest r hr))
                p2 u hw0 hun
              have hmemf : k ∈ m.map Prod.fst ∧
                  rest.all (keyIn k) = true := by
                simp only [commonKeys] at hmem
                have h2 := List.mem_filter.mp hmem
                exact ⟨h2.1, h2.2⟩
              have hkx : keyIn k x = true := by
                rcases List.mem_cons.mp hx with hx | hx
                · subst hx
                  simp only [keyIn]
                  exact alookup_isSome_of_mem_keys hmemf.1
                · exact List.all_eq_true.mp hmemf.2 x hx
              have hmemchild : childAt k x ∈ ((alookup k m).getD Val.null) ::
                  rest.map (childAt k) := by
                rcases List.mem_cons.mp hx with hx | hx
                · subst hx
                  exact List.mem_cons_self _ _
                · exact List.mem_cons_of_mem _ (List.mem_map_of_mem _ hx)
              obtain ⟨w, hw, hws, hwm⟩ := hsub (childAt k x) hmemchild
              have hvs : Val.isScalar (remove_empty_structures u) = true →
                  u = remove_empty_structures u := by
                intro hs
                cases hru : remove_empty_structures u with
                | scalar b => exact (prune_scalar_iff u b).mp hru
                | null =>
                  rw [hru] at hs
                  simp [Val.isScalar] at hs
                | map mm =>
                  rw [hru] at hs
                  simp [Val.isScalar] at hs
                | seq ll =>
                  rw [hru] at hs
                  simp [Val.isScalar] at hs
              refine ⟨w, ?_, ?_, ?_⟩
              · rw [getPath_cons_keyIn hkx p2]
                exact hw
              · intro hs
                have hue := hvs hs
                have hus : Val.isScalar u = true := by
                  rw [hue]
                  exact hs
                rw [← hue]
                exact hws hus
              · intro hm2
                apply hwm
                rw [← prune_isMap_iff u]
                exact hm2
            · rw [if_neg hmem] at halkE
              cases halkE
        · rw [di_map_not_all m rest hall] at hget
          exfalso
          cases p with
          | nil =>
            simp only [getPath, Option.some.injEq] at hget
            exact hvn hget.symm
          | cons k q => simp [getPath] at hget
  exact fun d rest hp hrest p v hget hvn x hx =>
    main (sizeV d) d rest le_rfl hp hrest p v hget hvn x hx

/-- Claim C2 (counterexample): sequence intersection drops pruned items
and shifts later items down, so a path present in the base need not
exist — let alone agree — in the input documents.  For
`[[\x7b"a": 1\x7d, [9]], [\x7b"b": 1\x7d, [9]]]` the first items intersect to
the droppable `\x7b\x7d` and are removed, the base is `[[9]]`, and the base
path `[0][0]` (value `9`) does not resolve in the first document, whose
`[0]` is a mapping. -/
theorem C2_counterexample :
    deep_intersection
      [Val.seq [Val.map [(Key.str "a", Val.scalar 1)], Val.seq [Val.scalar 9]],
       Val.seq [Val.map [(Key.str "b", Val.scalar 1)], Val.seq [Val.scalar 9]]] =
      Val.seq [Val.seq [Val.scalar 9]]
    ∧ getPath (Val.seq [Val.seq [Val.scalar 9]]) [Key.idx 0, Key.idx 0] =
      some (Val.scalar 9)
    ∧ getPath (Val.seq [Val.map [(Key.str "a", Val.scalar 1)],
        Val.seq [Val.scalar 9]]) [Key.idx 0, Key.idx 0] = none := by
  refine ⟨?_, by decide, by decide⟩
  simp [deep_intersection, di_seq_eq, di_map_eq, di_scalar_eq, zipAll,
    commonKeys, keyIn, alookup, childAt, Val.toSeq, Val.isMap, Val.isSeq,
    droppable, remove_empty_structures, pruneEntries, pruneItems]

/-- Claim C2 (amended): restricted to sequence-free documents (nested
mappings and scalars, with the unique dict keys Python dicts guarantee),
the base is a structural subset: every non-absent value reachable in
`deep_intersection(docs)` is reachable at the same path in every
document, equal for scalars, and of mapping kind for mappings (whose
containment then follows key by key from this same statement at the
extended paths).  With sequences present, pruning inside the sequence
branch shifts indices, and the property fails. -/
theorem C2_base_subset_amended (docs : List Val) (hne : docs ≠ [])
    (hplain : ∀ x ∈ docs, plainDoc x = true) (p : List Key) (v : Val)
    (hv : getPath (deep_intersection docs) p = some v) (hvn : v ≠ Val.null) :
    ∀ x ∈ docs, ∃ w, getPath x p = some w ∧
      (v.isScalar = true → w = v) ∧ (v.isMap = true → w.isMap = true) := by
  cases docs with
  | nil => exact absurd rfl hne
  | cons d rest =>
    have hv2 : getPath (di d rest) p = some v := hv
    exact di_subset d rest (hplain d (List.mem_cons_self _ _))
      (fun r hr => hplain r (List.mem_cons_of_mem _ hr)) p v hv2 hvn

/-- Witness for C2's amended theorem at a concrete input:
documents `\x7b"a": 1, "b": 2\x7d` and `\x7b"a": 1, "c": 3\x7d`, base path
`["a"]` with value `1`. -/
theorem C2_base_subset_amended_witness :
    ([Val.map [(Key.str "a", Val.scalar 1), (Key.str "b", Val.scalar 2)],
      Val.map [(Key.str "a", Val.scalar 1), (Key.str "c", Val.scalar 3)]] :
      List Val) ≠ []
    ∧ getPath (deep_intersection
        [Val.map [(Key.str "a", Val.scalar 1), (Key.str "b", Val.scalar 2)],
         Val.map [(Key.str "a", Val.scalar 1), (Key.str "c", Val.scalar 3)]])
        [Key.str "a"] = some (Val.scalar 1)
    ∧ (∀ x ∈ ([Val.map [(Key.str "a", Val.scalar 1),
          (Key.str "b", Val.scalar 2)],
        Val.map [(Key.str "a", Val.scalar 1), (Key.str "c", Val.scalar 3)]] :
          List Val),
        ∃ w, getPath x [Key.str "a"] = some w ∧
          ((Val.scalar 1).isScalar = true → w = Val.scalar 1) ∧
          ((Val.scalar 1).isMap = true → w.isMap = true)) := by
  have hbase : deep_intersection
      [Val.map [(Key.str "a", Val.scalar 1), (Key.str "b", Val.scalar 2)],
       Val.map [(Key.str "a", Val.scalar 1), (Key.str "c", Val.scalar 3)]] =
      Val.map [(Key.str "a", Val.scalar 1)] := by
    simp [deep_intersection, di_map_eq, di_scalar_eq, commonKeys, keyIn,
      alookup, childAt, Val.isMap, droppable, remove_empty_structures,
      pruneEntries]
  refine ⟨by decide, by rw [hbase]; decide, ?_⟩
  exact C2_base_subset_amended _ (by decide) (by decide) [Key.str "a"]
    (Val.scalar 1) (by rw [hbase]; decide) (by decide)
